import Mathlib

/-! # Verification of the CVRP MOEA core (`cvrp_moea`)

Shallow embedding of the repository's core components, translated from the
Python sources:

* `src/problem/split.py`    — tour↔route codec (`split_tour_to_routes`, `routes_to_tour`)
* `src/problem/solution.py` — route loads (`_route_load`)
* `src/algorithms/utils.py` — Pareto dominance and `fast_non_dominated_sort`
* `src/algorithms/nsga2.py` — crowding distance, `select_next_generation`
* `src/algorithms/spea2.py` — standalone `dominates`, `_assign_fitness`,
  `_environmental_selection`
* `src/operators/ox.py`     — order crossover

Customer ids are naturals (`0` is the depot marker), demands and the vehicle
capacity are integers (Python ints), objective values are rationals standing
for the exact values the float code computes with.
-/

namespace CVRP

/-- The part of a CVRP instance the codec consults: the integer capacity and
the per-customer demand (`instance.customers[c]['demand']`), plus the list of
customer ids (`instance.customers.keys()`).  The reader (`cvrp_reader.py`)
only ever creates customer ids in `range(2, dimension+1)`, so `0` (the depot
marker) is never a customer id. -/
structure Instance where
  capacity : Int
  demand : Nat → Int
  customerIds : List Nat

/-- Tail of `split_tour_to_routes` (`split.py`): the running loop over the
tour, carrying the current route (opened with the depot marker `0`) and the
running load. -/
def splitGo (inst : Instance) : List Nat → List Nat → Int → List (List Nat)
  | [], currentRoute, _ => [currentRoute ++ [0]]
  | c :: rest, currentRoute, currentLoad =>
    if currentLoad + inst.demand c ≤ inst.capacity then
      splitGo inst rest (currentRoute ++ [c]) (currentLoad + inst.demand c)
    else
      (currentRoute ++ [0]) :: splitGo inst rest [0, c] (inst.demand c)

/-- `split_tour_to_routes(tour, instance)` from `split.py`. -/
def split_tour_to_routes (tour : List Nat) (inst : Instance) : List (List Nat) :=
  splitGo inst tour [0] 0

/-- `routes_to_tour(routes)` from `split.py`: concatenate the non-depot
entries of every route, in order. -/
def routes_to_tour (routes : List (List Nat)) : List Nat :=
  routes.flatMap (fun route => route.filter (fun customer => customer ≠ 0))

/-- `CVRPSolution._route_load` from `solution.py`: total demand of the
non-depot nodes on one route. -/
def route_load (inst : Instance) (route : List Nat) : Int :=
  (route.filter (fun node => node ≠ 0)).foldl (fun load node => load + inst.demand node) 0

/-- Customers of a route: its non-depot entries (`get_route_info`'s
`'customers'` field in `solution.py`). -/
def routeCustomers (route : List Nat) : List Nat :=
  route.filter (fun node => node ≠ 0)

end CVRP

namespace CVRP

/-! ## Codec lemmas (claims C1, C2) -/

lemma foldl_add_demand (f : Nat → Int) (l : List Nat) (a : Int) :
    l.foldl (fun s n => s + f n) a = a + (l.map f).sum := by
  induction l generalizing a with
  | nil => simp
  | cons x xs ih => simp [ih, add_assoc]

lemma route_load_eq_sum (inst : Instance) (r : List Nat) :
    route_load inst r = ((r.filter (fun node => node ≠ 0)).map inst.demand).sum := by
  simp [route_load, foldl_add_demand]

lemma routes_to_tour_cons (r : List Nat) (rs : List (List Nat)) :
    routes_to_tour (r :: rs) = r.filter (fun c => c ≠ 0) ++ routes_to_tour rs := by
  simp [routes_to_tour]

/-- The flattened non-depot content of `splitGo`'s output is the pending
route's customers followed by the rest of the tour, provided no tour entry is
the depot marker. -/
lemma routes_to_tour_splitGo (inst : Instance) :
    ∀ (t cur : List Nat) (load : Int), (∀ c ∈ t, c ≠ 0) →
      routes_to_tour (splitGo inst t cur load) = cur.filter (fun c => c ≠ 0) ++ t := by
  intro t
  induction t with
  | nil =>
      intro cur load _
      simp [splitGo, routes_to_tour, List.filter_append]
  | cons c rest ih =>
      intro cur load h
      have hc : c ≠ 0 := h c (by simp)
      have hrest : ∀ x ∈ rest, x ≠ 0 := fun x hx => h x (by simp [hx])
      by_cases hcap : load + inst.demand c ≤ inst.capacity
      · rw [splitGo, if_pos hcap, ih _ _ hrest]
        simp [List.filter_append, hc]
      · rw [splitGo, if_neg hcap, routes_to_tour_cons, ih _ _ hrest]
        simp [List.filter_append, hc]

/-- C1: Round-trip law of the codec.  For every tour `t` that is a
permutation of the instance's customer-id set (which never contains the
depot marker `0`), `routes_to_tour (split_tour_to_routes t inst) = t`. -/
theorem c1_roundtrip (inst : Instance) (t : List Nat)
    (hperm : t.Perm inst.customerIds) (h0 : 0 ∉ inst.customerIds) :
    routes_to_tour (split_tour_to_routes t inst) = t := by
  have hne : ∀ c ∈ t, c ≠ 0 := by
    intro c hc hc0
    exact h0 (hc0 ▸ hperm.mem_iff.mp hc)
  rw [split_tour_to_routes, routes_to_tour_splitGo inst t [0] 0 hne]
  simp

/-- Instance used to refute C1-adjacent edge cases and C2: capacity 5, every
demand 10, a single customer `1`. -/
def bigDemandInst : Instance :=
  { capacity := 5, demand := fun _ => 10, customerIds := [1] }

/-- Witness for C1 at a concrete instance: tour `[2, 3]` against customer-id
set `[3, 2]`. -/
def smallInst : Instance :=
  { capacity := 10, demand := fun _ => 3, customerIds := [3, 2] }

theorem c1_roundtrip_witness :
    routes_to_tour (split_tour_to_routes [2, 3] smallInst) = [2, 3] :=
  c1_roundtrip smallInst [2, 3] (by decide) (by decide)

/-- C2 as stated is false: with no precondition on individual demands, a
customer whose demand exceeds the capacity yields a produced route whose
load exceeds the capacity, and also an initial route with no customers.
Concretely, `split_tour_to_routes [1] bigDemandInst = [[0,0],[0,1,0]]`. -/
theorem c2_counterexample :
    ¬ (∀ r ∈ split_tour_to_routes [1] bigDemandInst,
        route_load bigDemandInst r ≤ bigDemandInst.capacity ∧
        (([1] : List Nat) ≠ [] → routeCustomers r ≠ [])) := by
  decide

/-- `route_load` helper algebra. -/
lemma route_load_append_zero (inst : Instance) (r : List Nat) :
    route_load inst (r ++ [0]) = route_load inst r := by
  simp [route_load_eq_sum, List.filter_append]

lemma route_load_zero_cons (inst : Instance) (cs : List Nat) :
    route_load inst (0 :: cs) = route_load inst cs := by
  simp [route_load_eq_sum]

lemma route_load_append_customer (inst : Instance) (r : List Nat) (c : Nat) (hc : c ≠ 0) :
    route_load inst (r ++ [c]) = route_load inst r + inst.demand c := by
  simp [route_load_eq_sum, List.filter_append, hc]

lemma route_load_nil (inst : Instance) : route_load inst [] = 0 := by
  simp [route_load]

lemma routeCustomers_closed (cs : List Nat) (h : ∀ c ∈ cs, c ≠ 0) :
    routeCustomers ((0 :: cs) ++ [0]) = cs := by
  have : routeCustomers ((0 :: cs) ++ [0]) = cs.filter (fun c => c ≠ 0) := by
    simp [routeCustomers, List.filter_append]
  rw [this, List.filter_eq_self.mpr (by intro a ha; simpa using h a ha)]

/-- Capacity feasibility and non-emptiness of every route `splitGo` closes,
under the amended precondition that each pending demand fits the capacity. -/
lemma splitGo_feasible (inst : Instance) :
    ∀ (t cs : List Nat) (load : Int),
      (∀ c ∈ t, c ≠ 0 ∧ inst.demand c ≤ inst.capacity) →
      (∀ c ∈ cs, c ≠ 0) →
      load = route_load inst cs →
      (cs ≠ [] → load ≤ inst.capacity) →
      (cs ≠ [] ∨ t ≠ []) →
      ∀ r ∈ splitGo inst t (0 :: cs) load,
        route_load inst r ≤ inst.capacity ∧ routeCustomers r ≠ [] := by
  intro t
  induction t with
  | nil =>
      intro cs load _ hcs hload hcap hne r hr
      simp only [splitGo, List.mem_singleton] at hr
      subst hr
      have hcs' : cs ≠ [] := by
        rcases hne with h | h
        · exact h
        · exact absurd rfl h
      refine ⟨?_, ?_⟩
      · rw [route_load_append_zero, route_load_zero_cons, ← hload]
        exact hcap hcs'
      · rw [routeCustomers_closed cs hcs]
        exact hcs'
  | cons c rest ih =>
      intro cs load ht hcs hload hcap _ r hr
      obtain ⟨hc0, hcd⟩ := ht c (by simp)
      have hrest : ∀ x ∈ rest, x ≠ 0 ∧ inst.demand x ≤ inst.capacity :=
        fun x hx => ht x (by simp [hx])
      by_cases hfits : load + inst.demand c ≤ inst.capacity
      · rw [splitGo, if_pos hfits] at hr
        have hcur : (0 :: cs) ++ [c] = 0 :: (cs ++ [c]) := by simp
        rw [hcur] at hr
        refine ih (cs ++ [c]) (load + inst.demand c)
          hrest ?_ ?_ (fun _ => hfits) (Or.inl (by simp)) r hr
        · intro x hx
          rcases List.mem_append.mp hx with h | h
          · exact hcs x h
          · simp only [List.mem_singleton] at h; exact h ▸ hc0
        · rw [route_load_append_customer inst cs c hc0, hload]
      · rw [splitGo, if_neg hfits] at hr
        -- the closed route has at least one customer: otherwise its load is 0
        -- and the next demand would have fit
        have hcs' : cs ≠ [] := by
          intro hnil
          subst hnil
          rw [route_load_nil] at hload
          exact hfits (by simpa [hload] using hcd)
        rcases List.mem_cons.mp hr with hr | hr
        · subst hr
          refine ⟨?_, ?_⟩
          · rw [route_load_append_zero, route_load_zero_cons, ← hload]
            exact hcap hcs'
          · rw [routeCustomers_closed cs hcs]
            exact hcs'
        · have h01 : ([0, c] : List Nat) = 0 :: [c] := rfl
          rw [h01] at hr
          refine ih [c] (inst.demand c) hrest ?_ ?_ (fun _ => hcd) (Or.inl (by simp)) r hr
          · intro x hx; simp only [List.mem_singleton] at hx; exact hx ▸ hc0
          · simp [route_load_eq_sum, hc0]

/-- C2 amended: for every non-empty tour of non-depot customer ids each of
whose demands is at most the capacity, every route produced by
`split_tour_to_routes` has load at most the capacity and contains at least
one customer. -/
theorem c2_amended (inst : Instance) (tour : List Nat) (hne : tour ≠ [])
    (h : ∀ c ∈ tour, c ≠ 0 ∧ inst.demand c ≤ inst.capacity) :
    ∀ r ∈ split_tour_to_routes tour inst,
      route_load inst r ≤ inst.capacity ∧ routeCustomers r ≠ [] :=
  splitGo_feasible inst tour [] 0 h (by intro c hc; cases hc)
    (by rw [route_load_nil]) (fun hc => absurd rfl hc) (Or.inr hne)

/-- Witness for the amended C2 at a concrete instance: capacity 5, all
demands 2, tour `[1, 2, 3]` splits into `[[0,1,2,0],[0,3,0]]`. -/
def medInst : Instance :=
  { capacity := 5, demand := fun _ => 2, customerIds := [1, 2, 3] }

theorem c2_amended_witness :
    split_tour_to_routes [1, 2, 3] medInst = [[0, 1, 2, 0], [0, 3, 0]] ∧
    (route_load medInst [0, 1, 2, 0] ≤ medInst.capacity ∧
      routeCustomers [0, 1, 2, 0] ≠ []) ∧
    (route_load medInst [0, 3, 0] ≤ medInst.capacity ∧
      routeCustomers [0, 3, 0] ≠ []) :=
  ⟨by decide,
   c2_amended medInst [1, 2, 3] (by decide) (by decide) [0, 1, 2, 0] (by decide),
   c2_amended medInst [1, 2, 3] (by decide) (by decide) [0, 3, 0] (by decide)⟩

end CVRP

namespace CVRP

/-! ## Dominance (claims C10, C3) -/

/-- Objective values of a solution: `total_distance` and `route_balance`
(`solution.py` computes them eagerly at construction; here they are the
abstract pair the dominance tests consult). -/
structure Obj where
  total_distance : ℚ
  route_balance : ℚ
deriving DecidableEq

instance : Inhabited Obj := ⟨⟨0, 0⟩⟩

/-- `dominates(sol1, sol2)` from `src/algorithms/utils.py`, with its exact
early-return branch structure (`if lt ... elif gt: return False`, for each
objective in turn, then return the `better_in_at_least_one` flag). -/
def utilsDominates (a b : Obj) : Bool :=
  if a.total_distance < b.total_distance then
    -- better_in_at_least_one = True; fall through to the second objective
    if a.route_balance < b.route_balance then true
    else if b.route_balance < a.route_balance then false
    else true
  else if b.total_distance < a.total_distance then false
  else
    if a.route_balance < b.route_balance then true
    else if b.route_balance < a.route_balance then false
    else false

/-- The standalone `dominates(a, b)` from `src/algorithms/spea2.py`: one
boolean conjunction of weak inequalities with a strict disjunct. -/
def spea2Dominates (a b : Obj) : Bool :=
  (a.total_distance ≤ b.total_distance) && (a.route_balance ≤ b.route_balance) &&
    ((a.total_distance < b.total_distance) || (a.route_balance < b.route_balance))

/-- The two dominance tests agree (shared helper; claim C10 restates it). -/
lemma dominates_eq (a b : Obj) : utilsDominates a b = spea2Dominates a b := by
  unfold utilsDominates spea2Dominates
  rcases lt_trichotomy a.total_distance b.total_distance with h | h | h <;>
    rcases lt_trichotomy a.route_balance b.route_balance with h2 | h2 | h2
  · simp [h, h2, h.le, h2.le]
  · simp [h, h2, h.le, le_of_eq h2]
  · simp [h, h2, h.not_lt, not_le.mpr h2, h2.le]
  · simp [h, h2, le_of_eq h, h2.le, lt_irrefl]
  · simp [h, h2, le_of_eq h, le_of_eq h2, lt_irrefl]
  · simp [h, h2, le_of_eq h, not_le.mpr h2, lt_irrefl, h2.le]
  · simp [h, h2, h.not_lt, not_le.mpr h]
  · simp [h, h2, h.not_lt, not_le.mpr h]
  · simp [h, h2, h.not_lt, not_le.mpr h]

/-- C10: the standalone dominance predicate in the SPEA2 module is
extensionally equal to the shared dominance predicate in the utilities
module. -/
theorem c10_dominates_equivalence (a b : Obj) :
    utilsDominates a b = spea2Dominates a b :=
  dominates_eq a b

/-- Propositional form of dominance. -/
lemma dominates_iff (a b : Obj) :
    utilsDominates a b = true ↔
      a.total_distance ≤ b.total_distance ∧ a.route_balance ≤ b.route_balance ∧
        (a.total_distance < b.total_distance ∨ a.route_balance < b.route_balance) := by
  rw [dominates_eq]
  unfold spea2Dominates
  simp [and_assoc]

lemma dominates_irrefl (a : Obj) : utilsDominates a a = false := by
  rw [dominates_eq]; unfold spea2Dominates; simp

lemma dominates_asymm {a b : Obj} (h : utilsDominates a b = true) :
    utilsDominates b a = false := by
  rw [dominates_iff] at h
  rw [dominates_eq]; unfold spea2Dominates
  obtain ⟨h1, h2, h3⟩ := h
  rcases h3 with h3 | h3 <;> simp [h3.not_le, not_le.mpr, h1, h2, h3]

lemma dominates_trans {a b c : Obj} (hab : utilsDominates a b = true)
    (hbc : utilsDominates b c = true) : utilsDominates a c = true := by
  rw [dominates_iff] at hab hbc ⊢
  obtain ⟨h1, h2, h3⟩ := hab
  obtain ⟨g1, g2, g3⟩ := hbc
  refine ⟨h1.trans g1, h2.trans g2, ?_⟩
  rcases h3 with h3 | h3
  · exact Or.inl (h3.trans_le g1)
  · exact Or.inr (h3.trans_le g2)

/-- Dominance implies a strict lexicographic decrease of the objective
pair; used to extract a minimal element of any nonempty index set. -/
lemma dominates_lex_lt {a b : Obj} (h : utilsDominates a b = true) :
    toLex (a.total_distance, a.route_balance) < toLex (b.total_distance, b.route_balance) := by
  rw [dominates_iff] at h
  obtain ⟨h1, h2, h3⟩ := h
  rcases lt_or_eq_of_le h1 with h1' | h1'
  · exact Prod.Lex.left _ _ h1'
  · rw [h1']
    rcases h3 with h3 | h3
    · exact absurd h1' h3.ne
    · exact Prod.Lex.right _ h3

end CVRP

namespace CVRP

/-! ## `fast_non_dominated_sort` (claim C3)

The Python function works on solution objects carrying mutable scratch
fields; here a population is a `List Obj` and solutions are addressed by
their index.  `p.dominated_by` (which, despite its name, stores the
solutions `p` dominates) becomes `domList`, `p.dominates_count` (the number
of solutions dominating `p`) becomes `initCount`. -/

/-- The list the double loop appends to `p.dominated_by` for `p = pop[i]`:
every `j ≠ i` (in population order) with `dominates(pop[i], pop[j])`. -/
def domList (pop : List Obj) (i : Nat) : List Nat :=
  (List.range pop.length).filter
    (fun j => decide (j ≠ i) && utilsDominates pop[i]! pop[j]!)

/-- The value the double loop leaves in `pop[i].dominates_count`: the number
of `j ≠ i` falling into the `elif dominates(q, p)` branch. -/
def initCount (pop : List Obj) (i : Nat) : Int :=
  (((List.range pop.length).filter
    (fun j => decide (j ≠ i) && !utilsDominates pop[i]! pop[j]! &&
      utilsDominates pop[j]! pop[i]!)).length : Int)

/-- `fronts[0]`: the indices whose dominate-count is zero, in population
order. -/
def front0 (pop : List Obj) : List Nat :=
  (List.range pop.length).filter (fun i => initCount pop i == 0)

/-- One inner-loop step of the front-building phase: decrement
`q.dominates_count` and, if it just reached zero, append `q` to the next
front. -/
def stepOne (st : (Nat → Int) × List Nat) (q : Nat) : (Nat → Int) × List Nat :=
  let c := Function.update st.1 q (st.1 q - 1)
  if c q = 0 then (c, st.2 ++ [q]) else (c, st.2)

/-- Processing one front: for each `p` in the front in order, for each `q`
in `p.dominated_by` in order, run `stepOne`.  Returns the updated counts and
the next front. -/
def processFront (pop : List Obj) (counts : Nat → Int) (front : List Nat) :
    (Nat → Int) × List Nat :=
  (front.flatMap (domList pop)).foldl stepOne (counts, [])

/-- The `while fronts[i]` loop.  Python's loop needs no fuel; here the fuel
`pop.length` is enough because each nonempty front retires at least one
index (established by `buildFronts_spec` below), and once the current front
is empty the recursion and the loop agree in dropping it (`fronts[:-1]`). -/
def buildFronts (pop : List Obj) : Nat → (Nat → Int) → List Nat → List (List Nat)
  | 0, _, _ => []
  | fuel + 1, counts, front =>
    if front = [] then []
    else
      let st := processFront pop counts front
      front :: buildFronts pop fuel st.1 st.2

/-- `fast_non_dominated_sort(population)` from `utils.py`, on indices. -/
def fast_non_dominated_sort (pop : List Obj) : List (List Nat) :=
  buildFronts pop pop.length (initCount pop) (front0 pop)

end CVRP

namespace CVRP

/-- Index-level dominance: `pop[p]` dominates `pop[q]` and the indices
differ (the double loop skips `i == j`). -/
def Domin (pop : List Obj) (p q : Nat) : Prop :=
  p ≠ q ∧ utilsDominates pop[p]! pop[q]! = true

instance (pop : List Obj) (p q : Nat) : Decidable (Domin pop p q) := by
  unfold Domin; infer_instance

/-- Number of dominators of `q` whose index is not yet retired into the set
`A` of already-emitted fronts: the value `q.dominates_count` holds while the
fronts up to `A` have been processed. -/
def dcount (pop : List Obj) (A : Finset Nat) (q : Nat) : Int :=
  (((Finset.range pop.length).filter (fun p => p ∉ A ∧ Domin pop p q)).card : Int)

lemma toFinset_list_range (n : Nat) : (List.range n).toFinset = Finset.range n := by
  ext x; simp

/-- Bridge between the loop-level count (length of a filtered `List.range`)
and the set-level count (card of a filtered `Finset.range`). -/
lemma length_filter_range (n : Nat) (p : Nat → Bool) :
    ((List.range n).filter p).length =
      ((Finset.range n).filter (fun x => p x = true)).card := by
  rw [← List.toFinset_card_of_nodup (List.Nodup.filter p (List.nodup_range _)),
    List.toFinset_filter, toFinset_list_range]

lemma mem_domList {pop : List Obj} {i j : Nat} :
    j ∈ domList pop i ↔ j < pop.length ∧ j ≠ i ∧ utilsDominates pop[i]! pop[j]! = true := by
  simp [domList, List.mem_filter]

lemma domList_nodup (pop : List Obj) (i : Nat) : (domList pop i).Nodup :=
  List.Nodup.filter _ (List.nodup_range _)

/-- `initCount` agrees with the set-level dominator count at `A = ∅`: the
`elif` guard `not dominates(p, q)` is redundant by asymmetry of dominance. -/
lemma initCount_eq_dcount (pop : List Obj) (q : Nat) :
    initCount pop q = dcount pop ∅ q := by
  unfold initCount dcount
  rw [length_filter_range]
  have hs : (Finset.range pop.length).filter
      (fun x => (decide (x ≠ q) && !utilsDominates pop[q]! pop[x]! &&
        utilsDominates pop[x]! pop[q]!) = true) =
      (Finset.range pop.length).filter (fun p => p ∉ (∅ : Finset Nat) ∧ Domin pop p q) := by
    ext j
    simp only [Finset.mem_filter, Bool.and_eq_true, Bool.not_eq_true', decide_eq_true_eq,
      Finset.not_mem_empty, Domin, not_false_iff, true_and]
    constructor
    · rintro ⟨hj, ⟨hne, -⟩, hd⟩
      exact ⟨hj, hne, hd⟩
    · rintro ⟨hj, hne, hd⟩
      exact ⟨hj, ⟨hne, dominates_asymm hd⟩, hd⟩
  rw [hs]

lemma mem_front0 {pop : List Obj} {q : Nat} :
    q ∈ front0 pop ↔ q < pop.length ∧ initCount pop q = 0 := by
  simp [front0, List.mem_filter]

lemma front0_nodup (pop : List Obj) : (front0 pop).Nodup :=
  List.Nodup.filter _ (List.nodup_range _)

lemma count_flatMap_eq_sum (f : Nat → List Nat) (l : List Nat) (r : Nat) :
    (l.flatMap f).count r = (l.map (fun p => (f p).count r)).sum := by
  induction l with
  | nil => simp
  | cons p rest ih => simp [List.flatMap_cons, List.count_append, ih]

lemma sum_map_ite_count (l : List Nat) (P : Nat → Prop) [DecidablePred P] :
    (l.map (fun p => if P p then 1 else 0)).sum = (l.filter (fun p => decide (P p))).length := by
  induction l with
  | nil => simp
  | cons p rest ih => by_cases h : P p <;> simp [List.filter_cons, h, ih, Nat.add_comm]

/-- Count of `r` in the concatenation of `p.dominated_by` over the front. -/
lemma count_front_flatMap (pop : List Obj) (front : List Nat) (r : Nat) :
    (front.flatMap (domList pop)).count r =
      (front.filter (fun p => decide (r ∈ domList pop p))).length := by
  rw [count_flatMap_eq_sum, ← sum_map_ite_count]
  congr 1
  apply List.map_congr_left
  intro p _
  by_cases h : r ∈ domList pop p
  · simp [h, List.count_eq_one_of_mem (domList_nodup pop p) h]
  · simp [h, List.count_eq_zero.mpr h]

end CVRP

namespace CVRP

lemma stepOne_eq (st : (Nat → Int) × List Nat) (q : Nat) :
    stepOne st q = (Function.update st.1 q (st.1 q - 1),
      if st.1 q = 1 then st.2 ++ [q] else st.2) := by
  unfold stepOne
  simp only [Function.update_same, sub_eq_zero]
  split <;> rfl

/-- Final counts after the inner double loop: each count drops by the number
of occurrences in the processed stream. -/
lemma foldl_stepOne_counts (qs : List Nat) (counts : Nat → Int) (acc : List Nat) (r : Nat) :
    (qs.foldl stepOne (counts, acc)).1 r = counts r - (qs.count r : Int) := by
  induction qs generalizing counts acc with
  | nil => simp
  | cons q rest ih =>
    rw [List.foldl_cons, stepOne_eq]
    dsimp only
    by_cases hqr : q = r
    · subst hqr
      rw [ih]
      rw [Function.update_same, List.count_cons_self]
      push_cast
      ring
    · rw [ih, Function.update_noteq (Ne.symm hqr), List.count_cons_of_ne (Ne.symm hqr)]

/-- Final next-front content after the inner double loop: `r` is appended
exactly once when its count starts positive and at least that many
occurrences of `r` flow past; otherwise never. -/
lemma foldl_stepOne_count_mem (qs : List Nat) (counts : Nat → Int) (acc : List Nat) (r : Nat) :
    (qs.foldl stepOne (counts, acc)).2.count r =
      acc.count r + (if 1 ≤ counts r ∧ counts r ≤ (qs.count r : Int) then 1 else 0) := by
  induction qs generalizing counts acc with
  | nil =>
    have hng : ¬(1 ≤ counts r ∧ counts r ≤ ((List.count r ([] : List Nat) : Nat) : Int)) := by
      simp only [List.count_nil, Nat.cast_zero]
      rintro ⟨h1, h2⟩
      omega
    rw [List.foldl_nil, if_neg hng, Nat.add_zero]
  | cons q rest ih =>
    rw [List.foldl_cons, stepOne_eq]
    dsimp only
    by_cases hqr : q = r
    · subst hqr
      rw [ih, List.count_cons_self, Function.update_same]
      have hacc : (if counts q = 1 then acc ++ [q] else acc).count q =
          acc.count q + (if counts q = 1 then 1 else 0) := by
        split <;> simp
      rw [hacc]
      have hcast : ((rest.count q + 1 : Nat) : Int) = (rest.count q : Int) + 1 := by push_cast; ring
      rw [hcast]
      split_ifs <;> omega
    · rw [ih, Function.update_noteq (Ne.symm hqr), List.count_cons_of_ne (Ne.symm hqr)]
      have hacc : (if counts q = 1 then acc ++ [q] else acc).count r = acc.count r := by
        split <;> simp [List.count_append, List.count_singleton', hqr]
      rw [hacc]

lemma processFront_counts (pop : List Obj) (counts : Nat → Int) (front : List Nat) (r : Nat) :
    (processFront pop counts front).1 r =
      counts r - ((front.flatMap (domList pop)).count r : Int) :=
  foldl_stepOne_counts _ counts [] r

lemma processFront_next_nodup (pop : List Obj) (counts : Nat → Int) (front : List Nat) :
    (processFront pop counts front).2.Nodup := by
  rw [List.nodup_iff_count_le_one]
  intro r
  rw [processFront, foldl_stepOne_count_mem]
  simp only [List.count_nil, Nat.zero_add]
  split <;> omega

lemma mem_processFront_next {pop : List Obj} {counts : Nat → Int} {front : List Nat} {r : Nat} :
    r ∈ (processFront pop counts front).2 ↔
      1 ≤ counts r ∧ counts r ≤ ((front.flatMap (domList pop)).count r : Int) := by
  rw [← List.count_pos_iff, processFront, foldl_stepOne_count_mem]
  simp only [List.count_nil, Nat.zero_add]
  split <;> rename_i h
  · simpa using h
  · simpa using h

end CVRP

namespace CVRP

/-- The set of dominators of `r` not yet retired into `A`. -/
def dominSet (pop : List Obj) (A : Finset Nat) (r : Nat) : Finset Nat :=
  (Finset.range pop.length).filter (fun p => p ∉ A ∧ Domin pop p r)

lemma dcount_eq_card (pop : List Obj) (A : Finset Nat) (r : Nat) :
    dcount pop A r = ((dominSet pop A r).card : Int) := rfl

lemma count_flatMap_card (pop : List Obj) {front : List Nat} (hnd : front.Nodup) (r : Nat) :
    (front.flatMap (domList pop)).count r =
      (front.toFinset.filter (fun p => r ∈ domList pop p)).card := by
  rw [count_front_flatMap, ← List.toFinset_card_of_nodup (List.Nodup.filter _ hnd),
    List.toFinset_filter]
  apply congrArg Finset.card
  ext x
  simp [Finset.mem_filter]

/-- One step of the front-building loop, set-level: after processing `front`
the counts describe dominators outside `A ∪ front`, and the next front holds
exactly the fresh indices all of whose dominators are now retired. -/
lemma processFront_spec (pop : List Obj) (A : Finset Nat) (counts : Nat → Int)
    (front : List Nat)
    (hnd : front.Nodup)
    (hsub : ∀ q ∈ front, q < pop.length ∧ q ∉ A)
    (hcounts : ∀ q, q < pop.length → counts q = dcount pop A q)
    (hI3 : ∀ q, q < pop.length →
      ((q ∈ A ∨ q ∈ front) ↔ ∀ p, p < pop.length → Domin pop p q → p ∈ A)) :
    (∀ q, q < pop.length →
        (processFront pop counts front).1 q = dcount pop (A ∪ front.toFinset) q) ∧
    (∀ r, r ∈ (processFront pop counts front).2 ↔
        (r < pop.length ∧ r ∉ A ∪ front.toFinset ∧
          ∀ p, p < pop.length → Domin pop p r → p ∈ A ∪ front.toFinset)) := by
  -- the two dominator sets at play, for an index r below the population size
  have hTS : ∀ r, r < pop.length →
      front.toFinset.filter (fun p => r ∈ domList pop p) ⊆ dominSet pop A r := by
    intro r _ p hp
    rw [Finset.mem_filter] at hp
    obtain ⟨hpf, hpd⟩ := hp
    rw [List.mem_toFinset] at hpf
    obtain ⟨hpn, hpA⟩ := hsub p hpf
    rw [mem_domList] at hpd
    exact Finset.mem_filter.mpr ⟨Finset.mem_range.mpr hpn, hpA, Ne.symm hpd.2.1, hpd.2.2⟩
  have hSdiff : ∀ r, r < pop.length →
      dominSet pop (A ∪ front.toFinset) r =
        dominSet pop A r \ front.toFinset.filter (fun p => r ∈ domList pop p) := by
    intro r hr
    ext p
    simp only [dominSet, Finset.mem_sdiff, Finset.mem_filter, Finset.mem_range,
      Finset.mem_union, List.mem_toFinset, mem_domList, Domin, not_or]
    constructor
    · rintro ⟨hpn, ⟨hpA, hpf⟩, hne, hd⟩
      exact ⟨⟨hpn, hpA, hne, hd⟩, fun hcon => hpf hcon.1⟩
    · rintro ⟨⟨hpn, hpA, hne, hd⟩, hcon⟩
      refine ⟨hpn, ⟨hpA, fun hpf => hcon ⟨hpf, hr, Ne.symm hne, hd⟩⟩, hne, hd⟩
  have hqs : ∀ r, r < pop.length →
      ((front.flatMap (domList pop)).count r : Int) =
        ((front.toFinset.filter (fun p => r ∈ domList pop p)).card : Int) := by
    intro r _
    rw [count_flatMap_card pop hnd]
  constructor
  · intro q hq
    rw [processFront_counts, hcounts q hq, hqs q hq, dcount_eq_card, dcount_eq_card,
      hSdiff q hq, Finset.card_sdiff (hTS q hq)]
    have hle := Finset.card_le_card (hTS q hq)
    omega
  · intro r
    rw [mem_processFront_next]
    by_cases hr : r < pop.length
    · rw [hcounts r hr, hqs r hr, dcount_eq_card]
      constructor
      · rintro ⟨hpos, hle⟩
        have hST : dominSet pop A r =
            front.toFinset.filter (fun p => r ∈ domList pop p) :=
          (Finset.eq_of_subset_of_card_le (hTS r hr) (by exact_mod_cast hle)).symm
        have hnotin : r ∉ A ∪ front.toFinset := by
          intro hrin
          have hall : ∀ p, p < pop.length → Domin pop p r → p ∈ A := by
            refine (hI3 r hr).mp ?_
            rcases Finset.mem_union.mp hrin with h | h
            · exact Or.inl h
            · exact Or.inr (List.mem_toFinset.mp h)
          have : dominSet pop A r = ∅ := by
            rw [Finset.eq_empty_iff_forall_not_mem]
            intro p hp
            rw [dominSet, Finset.mem_filter, Finset.mem_range] at hp
            exact hp.2.1 (hall p hp.1 hp.2.2)
          rw [this] at hpos
          simp at hpos
        refine ⟨hr, hnotin, ?_⟩
        intro p hpn hpd
        by_cases hpA : p ∈ A
        · exact Finset.mem_union_left _ hpA
        · have hpS : p ∈ dominSet pop A r :=
            Finset.mem_filter.mpr ⟨Finset.mem_range.mpr hpn, hpA, hpd⟩
          rw [hST, Finset.mem_filter] at hpS
          exact Finset.mem_union_right _ hpS.1
      · rintro ⟨-, hrnot, hall⟩
        have hnotallA : ¬ ∀ p, p < pop.length → Domin pop p r → p ∈ A := by
          intro hallA
          apply hrnot
          rcases (hI3 r hr).mpr hallA with h | h
          · exact Finset.mem_union_left _ h
          · exact Finset.mem_union_right _ (List.mem_toFinset.mpr h)
        push_neg at hnotallA
        obtain ⟨p0, hp0n, hp0d, hp0A⟩ := hnotallA
        have hp0S : p0 ∈ dominSet pop A r :=
          Finset.mem_filter.mpr ⟨Finset.mem_range.mpr hp0n, hp0A, hp0d⟩
        have hsubST : dominSet pop A r ⊆
            front.toFinset.filter (fun p => r ∈ domList pop p) := by
          intro p hp
          rw [dominSet, Finset.mem_filter, Finset.mem_range] at hp
          obtain ⟨hpn, hpA, hpd⟩ := hp
          have hpu := hall p hpn hpd
          rcases Finset.mem_union.mp hpu with h | h
          · exact absurd h hpA
          · exact Finset.mem_filter.mpr ⟨h, mem_domList.mpr ⟨hr, Ne.symm hpd.1, hpd.2⟩⟩
        refine ⟨?_, ?_⟩
        · have : 0 < (dominSet pop A r).card := Finset.card_pos.mpr ⟨p0, hp0S⟩
          omega
        · exact_mod_cast Finset.card_le_card hsubST
    · -- an index at or beyond the population size never enters a front
      have hzero : (front.flatMap (domList pop)).count r = 0 := by
        rw [List.count_eq_zero]
        intro hmem
        rw [List.mem_flatMap] at hmem
        obtain ⟨p, -, hp⟩ := hmem
        exact hr (mem_domList.mp hp).1
      constructor
      · rintro ⟨hpos, hle⟩
        rw [hzero] at hle
        omega
      · rintro ⟨hrn, -⟩
        exact absurd hrn hr

end CVRP

namespace CVRP

/-- An empty current front means every index is already retired: otherwise
the lexicographically-minimal unretired index would have all its dominators
retired and would have entered a front. -/
lemma empty_front_all_assigned (pop : List Obj) (A : Finset Nat) (front : List Nat)
    (hI3 : ∀ q, q < pop.length →
      ((q ∈ A ∨ q ∈ front) ↔ ∀ p, p < pop.length → Domin pop p q → p ∈ A))
    (hempty : front = []) :
    ∀ i, i < pop.length → i ∈ A := by
  intro i hi
  by_contra hiA
  have hU : (Finset.range pop.length \ A).Nonempty :=
    ⟨i, Finset.mem_sdiff.mpr ⟨Finset.mem_range.mpr hi, hiA⟩⟩
  obtain ⟨m, hmU, hmin⟩ := Finset.exists_min_image (Finset.range pop.length \ A)
    (fun j => toLex ((pop[j]!).total_distance, (pop[j]!).route_balance)) hU
  rw [Finset.mem_sdiff, Finset.mem_range] at hmU
  obtain ⟨hmn, hmA⟩ := hmU
  have hall : ∀ p, p < pop.length → Domin pop p m → p ∈ A := by
    intro p hpn hpd
    by_contra hpA
    have hpU : p ∈ Finset.range pop.length \ A :=
      Finset.mem_sdiff.mpr ⟨Finset.mem_range.mpr hpn, hpA⟩
    have hlt := dominates_lex_lt hpd.2
    exact absurd (hmin p hpU) (not_le.mpr hlt)
  rcases (hI3 m hmn).mpr hall with h | h
  · exact hmA h
  · rw [hempty] at h
    cases h

/-- Main induction for `fast_non_dominated_sort`: given the loop invariants,
`buildFronts` retires every unretired index into exactly one nonempty front,
and no front member dominates another member of the same front. -/
lemma buildFronts_spec (pop : List Obj) :
    ∀ (fuel : Nat) (A : Finset Nat) (counts : Nat → Int) (front : List Nat),
      front.Nodup →
      (∀ q ∈ front, q < pop.length ∧ q ∉ A) →
      (∀ q, q < pop.length → counts q = dcount pop A q) →
      (∀ q, q < pop.length →
        ((q ∈ A ∨ q ∈ front) ↔ ∀ p, p < pop.length → Domin pop p q → p ∈ A)) →
      (Finset.range pop.length \ A).card ≤ fuel →
      ((buildFronts pop fuel counts front).flatMap id).Nodup ∧
      (∀ i, i ∈ (buildFronts pop fuel counts front).flatMap id ↔ i < pop.length ∧ i ∉ A) ∧
      (∀ F ∈ buildFronts pop fuel counts front, F ≠ []) ∧
      (∀ F ∈ buildFronts pop fuel counts front, ∀ p ∈ F, ∀ q ∈ F,
        utilsDominates pop[p]! pop[q]! = false) := by
  intro fuel
  induction fuel with
  | zero =>
      intro A counts front hnd hsub hcounts hI3 hfuel
      -- no fuel: the unretired set must already be empty
      have hAall : ∀ i, i < pop.length → i ∈ A := by
        intro i hi
        by_contra hiA
        have : i ∈ Finset.range pop.length \ A :=
          Finset.mem_sdiff.mpr ⟨Finset.mem_range.mpr hi, hiA⟩
        have := Finset.card_pos.mpr ⟨i, this⟩
        omega
      refine ⟨by simp [buildFronts], ?_, by simp [buildFronts], by simp [buildFronts]⟩
      intro i
      simp only [buildFronts, List.flatMap_nil, List.not_mem_nil, false_iff, not_and, not_not]
      exact fun hi => hAall i hi
  | succ fuel ih =>
      intro A counts front hnd hsub hcounts hI3 hfuel
      by_cases hempty : front = []
      · have hAall := empty_front_all_assigned pop A front hI3 hempty
        rw [buildFronts, if_pos hempty]
        refine ⟨by simp, ?_, by simp, by simp⟩
        intro i
        simp only [List.flatMap_nil, List.not_mem_nil, false_iff, not_and, not_not]
        exact fun hi => hAall i hi
      · rw [buildFronts, if_neg hempty]
        obtain ⟨hc', hmem'⟩ := processFront_spec pop A counts front hnd hsub hcounts hI3
        set A' := A ∪ front.toFinset with hA'
        set next := (processFront pop counts front).2 with hnext
        -- invariants at the next state
        have hnd' : next.Nodup := processFront_next_nodup pop counts front
        have hsub' : ∀ q ∈ next, q < pop.length ∧ q ∉ A' := by
          intro q hq
          obtain ⟨h1, h2, -⟩ := (hmem' q).mp hq
          exact ⟨h1, h2⟩
        have hI3' : ∀ q, q < pop.length →
            ((q ∈ A' ∨ q ∈ next) ↔ ∀ p, p < pop.length → Domin pop p q → p ∈ A') := by
          intro q hq
          constructor
          · rintro (hqA' | hqnext)
            · rcases Finset.mem_union.mp hqA' with h | h
              · intro p hpn hpd
                exact Finset.mem_union_left _ ((hI3 q hq).mp (Or.inl h) p hpn hpd)
              · intro p hpn hpd
                exact Finset.mem_union_left _
                  ((hI3 q hq).mp (Or.inr (List.mem_toFinset.mp h)) p hpn hpd)
            · exact ((hmem' q).mp hqnext).2.2
          · intro hall
            by_cases hqA' : q ∈ A'
            · exact Or.inl hqA'
            · exact Or.inr ((hmem' q).mpr ⟨hq, hqA', hall⟩)
        have hfuel' : (Finset.range pop.length \ A').card ≤ fuel := by
          obtain ⟨f0, hf0⟩ := List.exists_mem_of_ne_nil front hempty
          obtain ⟨hf0n, hf0A⟩ := hsub f0 hf0
          have hstrict : Finset.range pop.length \ A' ⊂ Finset.range pop.length \ A := by
            constructor
            · intro x hx
              rw [Finset.mem_sdiff] at hx ⊢
              exact ⟨hx.1, fun hxA => hx.2 (Finset.mem_union_left _ hxA)⟩
            · intro hcon
              have hf0U : f0 ∈ Finset.range pop.length \ A :=
                Finset.mem_sdiff.mpr ⟨Finset.mem_range.mpr hf0n, hf0A⟩
              have := hcon hf0U
              rw [Finset.mem_sdiff] at this
              exact this.2 (Finset.mem_union_right _ (List.mem_toFinset.mpr hf0))
          have := Finset.card_lt_card hstrict
          omega
        obtain ⟨ihnd, ihmem, ihne, ihdom⟩ :=
          ih A' (processFront pop counts front).1 next hnd' hsub' hc' hI3' hfuel'
        refine ⟨?_, ?_, ?_, ?_⟩
        · rw [List.flatMap_cons]
          rw [List.nodup_append]
          refine ⟨hnd, ihnd, ?_⟩
          intro x hx hx'
          have := (ihmem x).mp hx'
          exact this.2 (Finset.mem_union_right _ (List.mem_toFinset.mpr hx))
        · intro i
          rw [List.flatMap_cons, List.mem_append, ihmem i]
          constructor
          · rintro (h | ⟨h1, h2⟩)
            · exact ⟨(hsub i h).1, (hsub i h).2⟩
            · exact ⟨h1, fun hiA => h2 (Finset.mem_union_left _ hiA)⟩
          · rintro ⟨h1, h2⟩
            by_cases hif : i ∈ front
            · exact Or.inl hif
            · refine Or.inr ⟨h1, ?_⟩
              intro hiA'
              rcases Finset.mem_union.mp hiA' with h | h
              · exact h2 h
              · exact hif (List.mem_toFinset.mp h)
        · intro F hF
          rcases List.mem_cons.mp hF with hF | hF
          · exact hF ▸ hempty
          · exact ihne F hF
        · intro F hF p hp q hq
          rcases List.mem_cons.mp hF with hF | hF
          · subst hF
            by_cases hpq : p = q
            · subst hpq
              exact dominates_irrefl _
            · by_contra hdom
              rw [Bool.not_eq_false] at hdom
              have hqn := (hsub q hq).1
              have hpn := (hsub p hp).1
              have hpA : p ∈ A := (hI3 q hqn).mp (Or.inr hq) p hpn ⟨hpq, hdom⟩
              exact (hsub p hp).2 hpA
          · exact ihdom F hF p hp q hq

end CVRP

namespace CVRP

/-- C3: `fast_non_dominated_sort` partitions its input exactly — every index
of the population appears in exactly one front (and exactly once), every
listed front member is a population index, no front is empty — and within a
single front no member dominates another member. -/
theorem c3_fast_non_dominated_sort_partitions (pop : List Obj) :
    (∀ i, i < pop.length →
        ((fast_non_dominated_sort pop).flatMap id).count i = 1) ∧
    (∀ i ∈ (fast_non_dominated_sort pop).flatMap id, i < pop.length) ∧
    (∀ F ∈ fast_non_dominated_sort pop, F ≠ []) ∧
    (∀ F ∈ fast_non_dominated_sort pop, ∀ p ∈ F, ∀ q ∈ F,
      utilsDominates pop[p]! pop[q]! = false) := by
  have hI3 : ∀ q, q < pop.length →
      ((q ∈ (∅ : Finset Nat) ∨ q ∈ front0 pop) ↔
        ∀ p, p < pop.length → Domin pop p q → p ∈ (∅ : Finset Nat)) := by
    intro q hq
    rw [mem_front0]
    constructor
    · rintro (h | ⟨-, hcount⟩)
      · exact absurd h (Finset.not_mem_empty q)
      · rw [initCount_eq_dcount, dcount_eq_card] at hcount
        have hcard : (dominSet pop ∅ q).card = 0 := by exact_mod_cast hcount
        rw [Finset.card_eq_zero] at hcard
        intro p hpn hpd
        have : p ∈ dominSet pop ∅ q :=
          Finset.mem_filter.mpr ⟨Finset.mem_range.mpr hpn, Finset.not_mem_empty p, hpd⟩
        rw [hcard] at this
        cases this
    · intro hall
      right
      refine ⟨hq, ?_⟩
      rw [initCount_eq_dcount, dcount_eq_card]
      have : dominSet pop ∅ q = ∅ := by
        rw [Finset.eq_empty_iff_forall_not_mem]
        intro p hp
        rw [dominSet, Finset.mem_filter, Finset.mem_range] at hp
        exact Finset.not_mem_empty p (hall p hp.1 hp.2.2)
      rw [this]
      simp
  obtain ⟨hnd, hmem, hne, hdom⟩ := buildFronts_spec pop pop.length ∅
    (initCount pop) (front0 pop) (front0_nodup pop)
    (fun q hq => ⟨(mem_front0.mp hq).1, Finset.not_mem_empty q⟩)
    (fun q _ => initCount_eq_dcount pop q) hI3
    (by simp)
  rw [fast_non_dominated_sort]
  refine ⟨?_, ?_, hne, hdom⟩
  · intro i hi
    exact List.count_eq_one_of_mem hnd ((hmem i).mpr ⟨hi, Finset.not_mem_empty i⟩)
  · intro i hi
    exact ((hmem i).mp hi).1

/-- Witness population for C3: four objective pairs whose fronts are
`[[0, 3], [2], [1]]`. -/
def popC3 : List Obj := [⟨1, 1⟩, ⟨2, 2⟩, ⟨1, 2⟩, ⟨3, 0⟩]

theorem c3_witness :
    fast_non_dominated_sort popC3 = [[0, 3], [2], [1]] ∧
    ((fast_non_dominated_sort popC3).flatMap id).count 2 = 1 ∧
    utilsDominates popC3[0]! popC3[3]! = false :=
  ⟨by decide,
   (c3_fast_non_dominated_sort_partitions popC3).1 2 (by decide),
   (c3_fast_non_dominated_sort_partitions popC3).2.2.2 [0, 3] (by decide) 0 (by decide)
     3 (by decide)⟩

end CVRP

namespace CVRP

/-! ## Crowding distance (claim C4)

`NSGA2.calculate_crowding_distance` mutates `crowding_distance` on solution
objects and reorders the front list in place with Python's stable
`list.sort`.  Here a front member carries an identity tag (standing for
Python object identity), the two objective values, and its crowding
distance; a distance is a `WithTop ℚ` so that `float('inf')` and `inf + x =
inf` are exact. -/

structure Sol where
  id : Nat
  total_distance : ℚ
  route_balance : ℚ
  crowding_distance : WithTop ℚ
deriving DecidableEq

instance : Inhabited Sol := ⟨⟨0, 0, 0, 0⟩⟩

/-- `front.sort(key=lambda x: getattr(x, obj))`: Python's stable ascending
sort, modelled by the (stable) insertion sort. -/
def sortPass (get : Sol → ℚ) (front : List Sol) : List Sol :=
  List.insertionSort (fun a b => get a ≤ get b) front

/-- The member left at position `i` of the sorted front by one objective
pass: both boundary members' distances become infinity and, unless the
objective's range (`obj_max - obj_min`, read off the sorted ends) is zero,
each interior member's distance grows by the normalized neighbour gap. -/
def cdPassEntry (get : Sol → ℚ) (sorted : List Sol) (i : Nat) : Sol :=
  let objRange := get sorted[sorted.length - 1]! - get sorted[0]!
  if i = 0 ∨ i = sorted.length - 1 then
    { sorted[i]! with crowding_distance := ⊤ }
  else if objRange = 0 then sorted[i]!
  else
    { sorted[i]! with crowding_distance :=
        sorted[i]!.crowding_distance +
          (((get sorted[i + 1]! - get sorted[i - 1]!) / objRange : ℚ) : WithTop ℚ) }

/-- One objective pass of `calculate_crowding_distance`: sort by the
objective (the in-place `front.sort`), then update every position. -/
def cdPass (get : Sol → ℚ) (front : List Sol) : List Sol :=
  let sorted := sortPass get front
  (List.range sorted.length).map (cdPassEntry get sorted)

/-- `NSGA2.calculate_crowding_distance(front)` from `nsga2.py`: fronts of
size ≤ 2 get infinite distance everywhere; otherwise distances are reset to
0 and the two objective passes run in order (`total_distance` then
`route_balance`). -/
def calculate_crowding_distance (front : List Sol) : List Sol :=
  if front.length ≤ 2 then
    front.map (fun s => { s with crowding_distance := ⊤ })
  else
    cdPass (fun s => s.route_balance)
      (cdPass (fun s => s.total_distance)
        (front.map (fun s => { s with crowding_distance := 0 })))

end CVRP

namespace CVRP

lemma sortPass_perm (get : Sol → ℚ) (l : List Sol) : (sortPass get l).Perm l :=
  List.perm_insertionSort _ l

lemma sortPass_length (get : Sol → ℚ) (l : List Sol) : (sortPass get l).length = l.length :=
  (List.perm_insertionSort _ l).length_eq

lemma cdPass_length (get : Sol → ℚ) (l : List Sol) : (cdPass get l).length = l.length := by
  rw [cdPass]
  simp [sortPass_length]

lemma cdPass_getElem (get : Sol → ℚ) (l : List Sol) (i : Nat) (hi : i < l.length) :
    (cdPass get l)[i]! = cdPassEntry get (sortPass get l) i := by
  have hmap : i < ((List.range (sortPass get l).length).map (cdPassEntry get (sortPass get l))).length := by
    simp [sortPass_length, hi]
  rw [cdPass]
  rw [getElem!_pos ((List.range (sortPass get l).length).map (cdPassEntry get (sortPass get l)))
    i hmap, List.getElem_map, List.getElem_range]

/-- Every entry of one pass preserves the identity of the sorted member at
its position, and its distance is either infinity, unchanged, or grown by a
rational amount. -/
lemma cdPassEntry_cases (get : Sol → ℚ) (sorted : List Sol) (i : Nat) :
    (cdPassEntry get sorted i).id = sorted[i]!.id ∧
      ((cdPassEntry get sorted i).crowding_distance = ⊤ ∨
       (cdPassEntry get sorted i).crowding_distance = sorted[i]!.crowding_distance ∨
       ∃ q : ℚ, (cdPassEntry get sorted i).crowding_distance =
          sorted[i]!.crowding_distance + (q : WithTop ℚ)) := by
  unfold cdPassEntry
  dsimp only
  split
  · exact ⟨rfl, Or.inl rfl⟩
  · split
    · exact ⟨rfl, Or.inr (Or.inl rfl)⟩
    · exact ⟨rfl, Or.inr (Or.inr ⟨_, rfl⟩)⟩

/-- Every member of a pass's output derives from a member of the input with
the same identity, its distance infinity, unchanged, or grown. -/
lemma cdPass_mem (get : Sol → ℚ) (l : List Sol) :
    ∀ m ∈ cdPass get l, ∃ m' ∈ l, m.id = m'.id ∧
      (m.crowding_distance = ⊤ ∨ m.crowding_distance = m'.crowding_distance ∨
       ∃ q : ℚ, m.crowding_distance = m'.crowding_distance + (q : WithTop ℚ)) := by
  intro m hm
  rw [cdPass, List.mem_map] at hm
  obtain ⟨i, hirange, hfi⟩ := hm
  rw [List.mem_range] at hirange
  have hmem : (sortPass get l)[i]! ∈ sortPass get l := by
    rw [getElem!_pos (sortPass get l) i hirange]
    exact List.getElem_mem hirange
  refine ⟨(sortPass get l)[i]!, (sortPass_perm get l).mem_iff.mp hmem, ?_⟩
  rw [← hfi]
  exact cdPassEntry_cases get (sortPass get l) i

/-- The identity tags after a pass are those of the sorted input,
position by position. -/
lemma cdPass_map_id (get : Sol → ℚ) (l : List Sol) :
    (cdPass get l).map Sol.id = (sortPass get l).map Sol.id := by
  apply List.ext_getElem!
  · simp [cdPass_length, sortPass_length]
  · intro n
    by_cases hn : n < l.length
    · have h1 : n < ((cdPass get l).map Sol.id).length := by simp [cdPass_length, hn]
      have h2 : n < ((sortPass get l).map Sol.id).length := by simp [sortPass_length, hn]
      have hn1 : n < (cdPass get l).length := by rw [cdPass_length]; exact hn
      have hn2 : n < (sortPass get l).length := by rw [sortPass_length]; exact hn
      rw [getElem!_pos (List.map Sol.id (cdPass get l)) n h1,
        getElem!_pos (List.map Sol.id (sortPass get l)) n h2,
        List.getElem_map, List.getElem_map]
      have hval := cdPass_getElem get l n hn
      rw [getElem!_pos (cdPass get l) n hn1] at hval
      rw [hval, (cdPassEntry_cases get (sortPass get l) n).1,
        getElem!_pos (sortPass get l) n hn2]
    · have h1 : ¬ n < ((cdPass get l).map Sol.id).length := by simp [cdPass_length, hn]
      have h2 : ¬ n < ((sortPass get l).map Sol.id).length := by simp [sortPass_length, hn]
      rw [getElem!_neg (List.map Sol.id (cdPass get l)) n h1,
        getElem!_neg (List.map Sol.id (sortPass get l)) n h2]

/-- Two members of a list with duplicate-free identity tags and the same
tag are the same member. -/
lemma eq_of_mem_of_id_eq {l : List Sol} (hnd : (l.map Sol.id).Nodup) :
    ∀ a ∈ l, ∀ b ∈ l, a.id = b.id → a = b := by
  induction l with
  | nil => intro a ha; cases ha
  | cons x xs ih =>
      intro a ha b hb hab
      rw [List.map_cons, List.nodup_cons] at hnd
      rcases List.mem_cons.mp ha with ha' | ha' <;> rcases List.mem_cons.mp hb with hb' | hb'
      · rw [ha', hb']
      · exact absurd (List.mem_map.mpr ⟨b, hb', (ha' ▸ hab).symm⟩) hnd.1
      · exact absurd (List.mem_map.mpr ⟨a, ha', (hb' ▸ hab)⟩) hnd.1
      · exact ih hnd.2 a ha' b hb' hab

end CVRP

namespace CVRP

/-- `for sol in front: sol.crowding_distance = 0` — the reset that precedes
the objective passes for fronts of size greater than two. -/
def cdInit (front : List Sol) : List Sol :=
  front.map (fun s => { s with crowding_distance := 0 })

lemma getBang_mem (l : List Sol) (i : Nat) (h : i < l.length) : l[i]! ∈ l := by
  rw [getElem!_pos l i h]
  exact List.getElem_mem h

lemma cdPass_boundary_top (get : Sol → ℚ) (l : List Sol) (hlen : 0 < l.length) :
    (cdPass get l)[0]!.crowding_distance = ⊤ ∧
    (cdPass get l)[l.length - 1]!.crowding_distance = ⊤ := by
  rw [cdPass_getElem get l 0 hlen, cdPass_getElem get l (l.length - 1) (by omega)]
  unfold cdPassEntry
  dsimp only
  constructor
  · rw [if_pos (Or.inl rfl)]
  · rw [if_pos (Or.inr (by rw [sortPass_length]))]

lemma cdPass_boundary_id (get : Sol → ℚ) (l : List Sol) (hlen : 0 < l.length) :
    (cdPass get l)[0]!.id = (sortPass get l)[0]!.id ∧
    (cdPass get l)[l.length - 1]!.id = (sortPass get l)[l.length - 1]!.id := by
  rw [cdPass_getElem get l 0 hlen, cdPass_getElem get l (l.length - 1) (by omega)]
  exact ⟨(cdPassEntry_cases get (sortPass get l) 0).1,
    (cdPassEntry_cases get (sortPass get l) (l.length - 1)).1⟩

lemma cdPass_id_nodup (get : Sol → ℚ) {l : List Sol} (hnd : (l.map Sol.id).Nodup) :
    ((cdPass get l).map Sol.id).Nodup := by
  rw [cdPass_map_id]
  exact ((sortPass_perm get l).map Sol.id).nodup_iff.mpr hnd

/-- An infinite distance survives a pass: interior updates only add, and
`inf + x = inf`. -/
lemma cdPass_preserves_top (get : Sol → ℚ) (l : List Sol)
    (hnd : (l.map Sol.id).Nodup) (m' : Sol) (hm' : m' ∈ l)
    (htop : m'.crowding_distance = ⊤) :
    ∀ m ∈ cdPass get l, m.id = m'.id → m.crowding_distance = ⊤ := by
  intro m hm hid
  obtain ⟨m'', hm'', hid2, hcd⟩ := cdPass_mem get l m hm
  have heq : m'' = m' := eq_of_mem_of_id_eq hnd m'' hm'' m' hm' (hid2 ▸ hid)
  rcases hcd with h | h | ⟨q, h⟩
  · exact h
  · rw [h, heq, htop]
  · rw [h, heq, htop, top_add]

/-- Any output member tagged with a boundary identity of the pass's sort is
the boundary member itself, hence infinite. -/
lemma cdPass_id_boundary_top (get : Sol → ℚ) (l : List Sol)
    (hnd : (l.map Sol.id).Nodup) (hlen : 0 < l.length) :
    ∀ m ∈ cdPass get l,
      (m.id = (sortPass get l)[0]!.id ∨ m.id = (sortPass get l)[l.length - 1]!.id) →
      m.crowding_distance = ⊤ := by
  intro m hm hid
  have hndout := cdPass_id_nodup get hnd
  rcases hid with hid | hid
  · have h0 : (cdPass get l)[0]! ∈ cdPass get l :=
      getBang_mem _ 0 (by rw [cdPass_length]; omega)
    have heq : m = (cdPass get l)[0]! :=
      eq_of_mem_of_id_eq hndout m hm _ h0 (by rw [(cdPass_boundary_id get l hlen).1, hid])
    rw [heq]
    exact (cdPass_boundary_top get l hlen).1
  · have h0 : (cdPass get l)[l.length - 1]! ∈ cdPass get l :=
      getBang_mem _ (l.length - 1) (by rw [cdPass_length]; omega)
    have heq : m = (cdPass get l)[l.length - 1]! :=
      eq_of_mem_of_id_eq hndout m hm _ h0 (by rw [(cdPass_boundary_id get l hlen).2, hid])
    rw [heq]
    exact (cdPass_boundary_top get l hlen).2

lemma cdInit_map_id (front : List Sol) : (cdInit front).map Sol.id = front.map Sol.id := by
  rw [cdInit, List.map_map]
  rfl

lemma cdInit_length (front : List Sol) : (cdInit front).length = front.length := by
  rw [cdInit, List.length_map]

end CVRP

namespace CVRP

/-- C4: after `calculate_crowding_distance` runs on a front: (i) a front of
size at most 2 has every member's distance infinite; (ii) for larger fronts
the boundary members of each per-objective stable sort (the members at the
sorted ends, i.e. the holders of that objective's minimum and maximum the
code selects) end with infinite distance; (iii) a pass whose objective has
zero range over the front leaves every interior member untouched — the
objective contributes 0 to interior distances. -/
theorem c4_crowding_distance (front : List Sol) :
    (front.length ≤ 2 → ∀ s ∈ calculate_crowding_distance front, s.crowding_distance = ⊤) ∧
    ((front.map Sol.id).Nodup → 2 < front.length →
      ∀ s ∈ calculate_crowding_distance front,
        (s.id = (sortPass (fun x => x.total_distance) (cdInit front))[0]!.id ∨
         s.id = (sortPass (fun x => x.total_distance) (cdInit front))[front.length - 1]!.id ∨
         s.id = (sortPass (fun x => x.route_balance)
            (cdPass (fun x => x.total_distance) (cdInit front)))[0]!.id ∨
         s.id = (sortPass (fun x => x.route_balance)
            (cdPass (fun x => x.total_distance) (cdInit front)))[front.length - 1]!.id) →
        s.crowding_distance = ⊤) ∧
    (∀ (get : Sol → ℚ) (l : List Sol) (i : Nat), 0 < i → i < l.length - 1 →
      get (sortPass get l)[(sortPass get l).length - 1]! = get (sortPass get l)[0]! →
      (cdPass get l)[i]! = (sortPass get l)[i]!) := by
  refine ⟨?_, ?_, ?_⟩
  · intro hlen s hs
    rw [calculate_crowding_distance, if_pos hlen] at hs
    rw [List.mem_map] at hs
    obtain ⟨t, -, ht⟩ := hs
    rw [← ht]
  · intro hnd hlen s hs hid
    rw [calculate_crowding_distance, if_neg (by omega)] at hs
    have h0len : (cdInit front).length = front.length := cdInit_length front
    have h0nd : ((cdInit front).map Sol.id).Nodup := by rw [cdInit_map_id]; exact hnd
    have h1len : (cdPass (fun x => x.total_distance) (cdInit front)).length = front.length := by
      rw [cdPass_length, h0len]
    have h1nd := cdPass_id_nodup (fun x => x.total_distance) h0nd
    rcases hid with hid | hid | hid | hid
    · -- boundary holder of the first (total_distance) sort
      have htop : (cdPass (fun x => x.total_distance) (cdInit front))[0]!.crowding_distance = ⊤ :=
        (cdPass_boundary_top _ _ (by omega)).1
      have hidb : (cdPass (fun x => x.total_distance) (cdInit front))[0]!.id =
          (sortPass (fun x => x.total_distance) (cdInit front))[0]!.id :=
        (cdPass_boundary_id _ _ (by omega)).1
      exact cdPass_preserves_top _ _ h1nd _
        (getBang_mem _ 0 (by omega)) htop s hs (by rw [hidb, hid])
    · have hlast : (cdInit front).length - 1 = front.length - 1 := by rw [h0len]
      have htop : (cdPass (fun x => x.total_distance)
          (cdInit front))[front.length - 1]!.crowding_distance = ⊤ := by
        have := (cdPass_boundary_top (fun x => x.total_distance) (cdInit front) (by omega)).2
        rwa [hlast] at this
      have hidb : (cdPass (fun x => x.total_distance) (cdInit front))[front.length - 1]!.id =
          (sortPass (fun x => x.total_distance) (cdInit front))[front.length - 1]!.id := by
        have := (cdPass_boundary_id (fun x => x.total_distance) (cdInit front) (by omega)).2
        rwa [hlast] at this
      exact cdPass_preserves_top _ _ h1nd _
        (getBang_mem _ (front.length - 1) (by omega)) htop s hs (by rw [hidb, hid])
    · -- boundary holder of the second (route_balance) sort
      refine cdPass_id_boundary_top _ _ h1nd (by omega) s hs (Or.inl ?_)
      exact hid
    · refine cdPass_id_boundary_top _ _ h1nd (by omega) s hs (Or.inr ?_)
      rw [h1len]
      exact hid
  · intro get l i h0 hi hrange
    have hlen2 : 2 ≤ l.length := by omega
    rw [cdPass_getElem get l i (by omega)]
    unfold cdPassEntry
    dsimp only
    rw [if_neg, if_pos]
    · rw [sub_eq_zero]
      exact hrange
    · push_neg
      refine ⟨by omega, ?_⟩
      rw [sortPass_length]
      omega

end CVRP

namespace CVRP

/-- Concrete four-member front for the C4 witness. -/
def frontC4 : List Sol := [⟨1, 1, 4, 0⟩, ⟨2, 2, 3, 0⟩, ⟨3, 4, 1, 0⟩, ⟨4, 8, 0, 0⟩]

/-- Concrete two-member front for the C4 witness (size ≤ 2 branch). -/
def frontC4s : List Sol := [⟨1, 1, 4, 5⟩, ⟨2, 2, 3, 7⟩]

theorem c4_witness :
    (Sol.mk 1 1 4 ⊤).crowding_distance = ⊤ ∧
    ((calculate_crowding_distance frontC4)[0]!).crowding_distance = ⊤ := by
  constructor
  · exact (c4_crowding_distance frontC4s).1 (by decide) ⟨1, 1, 4, ⊤⟩ (by decide)
  · have hcalc : calculate_crowding_distance frontC4 =
        cdPass (fun x => x.route_balance)
          (cdPass (fun x => x.total_distance) (cdInit frontC4)) := by
      rw [calculate_crowding_distance, if_neg (by decide)]
      rfl
    have hlen : 0 < (cdPass (fun x => x.total_distance) (cdInit frontC4)).length := by
      rw [cdPass_length, cdInit_length]
      decide
    refine (c4_crowding_distance frontC4).2.1 (by decide) (by decide) _ ?_ ?_
    · rw [hcalc]
      exact getBang_mem _ 0 (by rw [cdPass_length, cdPass_length, cdInit_length]; decide)
    · refine Or.inr (Or.inr (Or.inl ?_))
      rw [hcalc]
      exact (cdPass_boundary_id _ _ hlen).1

end CVRP

namespace CVRP

/-! ## `NSGA2.select_next_generation` (claim C6) -/

/-- `front.sort(key=lambda x: x.crowding_distance, reverse=True)`: Python's
stable descending sort. -/
def sortByCrowdingDesc (front : List Sol) : List Sol :=
  List.insertionSort (fun a b => b.crowding_distance ≤ a.crowding_distance) front

/-- The `for front in fronts` loop of `select_next_generation`, carrying the
accumulated `new_population`. -/
def selectNextAux (pop_size : Nat) (acc : List Sol) : List (List Sol) → List Sol
  | [] => acc
  | front :: rest =>
    if acc.length + front.length ≤ pop_size then
      selectNextAux pop_size (acc ++ front) rest
    else
      acc ++ (sortByCrowdingDesc front).take (pop_size - acc.length)

/-- `NSGA2.select_next_generation(fronts)` from `nsga2.py`. -/
def select_next_generation (pop_size : Nat) (fronts : List (List Sol)) : List Sol :=
  selectNextAux pop_size [] fronts

lemma sortByCrowdingDesc_length (front : List Sol) :
    (sortByCrowdingDesc front).length = front.length :=
  (List.perm_insertionSort _ front).length_eq

lemma selectNextAux_spec (pop_size : Nat) :
    ∀ (fronts : List (List Sol)) (acc : List Sol),
      acc.length ≤ pop_size →
      pop_size ≤ acc.length + (fronts.map List.length).sum →
      (selectNextAux pop_size acc fronts).length = pop_size ∧
      (∀ s ∈ selectNextAux pop_size acc fronts, s ∈ acc ∨ ∃ F ∈ fronts, s ∈ F) := by
  intro fronts
  induction fronts with
  | nil =>
      intro acc hle hge
      simp only [selectNextAux, List.map_nil, List.sum_nil, Nat.add_zero] at hge ⊢
      exact ⟨le_antisymm hle hge, fun s hs => Or.inl hs⟩
  | cons front rest ih =>
      intro acc hle hge
      rw [List.map_cons, List.sum_cons] at hge
      by_cases hfits : acc.length + front.length ≤ pop_size
      · rw [selectNextAux, if_pos hfits]
        obtain ⟨hl, hm⟩ := ih (acc ++ front)
          (by rw [List.length_append]; exact hfits)
          (by rw [List.length_append]; omega)
        refine ⟨hl, ?_⟩
        intro s hs
        rcases hm s hs with h | ⟨F, hF, hsF⟩
        · rcases List.mem_append.mp h with h | h
          · exact Or.inl h
          · exact Or.inr ⟨front, by simp, h⟩
        · exact Or.inr ⟨F, by simp [hF], hsF⟩
      · rw [selectNextAux, if_neg hfits]
        constructor
        · rw [List.length_append, List.length_take, sortByCrowdingDesc_length]
          omega
        · intro s hs
          rcases List.mem_append.mp hs with h | h
          · exact Or.inl h
          · refine Or.inr ⟨front, by simp, ?_⟩
            exact ((List.perm_insertionSort _ front).mem_iff).mp (List.take_subset _ _ h)

/-- C6: whenever the fronts hold at least `pop_size` solutions in total (in
particular whenever they partition a combined population of size ≥ P), the
selected next generation has size exactly `pop_size`, and every selected
solution comes from one of the fronts. -/
theorem c6_select_next_generation (pop_size : Nat) (fronts : List (List Sol))
    (hsum : pop_size ≤ (fronts.map List.length).sum) :
    (select_next_generation pop_size fronts).length = pop_size ∧
    ∀ s ∈ select_next_generation pop_size fronts, ∃ F ∈ fronts, s ∈ F := by
  obtain ⟨hl, hm⟩ := selectNextAux_spec pop_size fronts [] (Nat.zero_le _)
    (by simpa using hsum)
  refine ⟨hl, ?_⟩
  intro s hs
  rcases hm s hs with h | h
  · cases h
  · exact h

theorem c6_witness :
    (select_next_generation 2
        [[⟨1, 1, 1, ⊤⟩], [⟨2, 2, 2, (5 : ℚ)⟩, ⟨3, 3, 3, (7 : ℚ)⟩]]).length = 2 ∧
    ∃ F ∈ [[⟨1, 1, 1, ⊤⟩], [⟨2, 2, 2, (5 : ℚ)⟩, ⟨3, 3, 3, (7 : ℚ)⟩]],
      Sol.mk 3 3 3 (7 : ℚ) ∈ F :=
  ⟨(c6_select_next_generation 2 _ (by decide)).1,
   (c6_select_next_generation 2 _ (by decide)).2 ⟨3, 3, 3, (7 : ℚ)⟩ (by decide)⟩

end CVRP

namespace CVRP

/-! ## Order crossover (claim C5) -/

/-- The slice `parent1[a:b+1]` copied verbatim into the child
(`child[a:b+1] = parent1[a:b+1]` in `ox.py`). -/
def oxSeg (parent1 : List Nat) (a b : Nat) : List Nat :=
  (parent1.drop a).take (b + 1 - a)

/-- `fill = [gene for gene in parent2 if gene not in child]`: when the
comprehension runs, `child` holds `None`s and parent1's slice, so the
membership test amounts to membership in the slice. -/
def oxFill (parent1 parent2 : List Nat) (a b : Nat) : List Nat :=
  parent2.filter (fun g => !decide (g ∈ oxSeg parent1 a b))

/-- `ox_crossover(parent1, parent2)` from `ox.py`, the crossover points
`a ≤ b < n` drawn by `random.sample` passed explicitly.  The `None`
positions of the child are `0..a-1` and `b+1..n-1`; the loop fills them
left to right from `fill`, so the first `a` fill genes land before the
slice and the remaining ones after it. -/
def ox_crossover (parent1 parent2 : List Nat) (a b : Nat) : List Nat :=
  (oxFill parent1 parent2 a b).take a ++ oxSeg parent1 a b ++
    (oxFill parent1 parent2 a b).drop a

lemma oxSeg_length {parent1 : List Nat} {a b : Nat} (hab : a ≤ b) (hb : b < parent1.length) :
    (oxSeg parent1 a b).length = b + 1 - a := by
  rw [oxSeg, List.length_take, List.length_drop]
  omega

/-- The parent decomposes around the slice. -/
lemma oxSeg_decomp (parent1 : List Nat) (a b : Nat) (hab : a ≤ b) :
    parent1 = parent1.take a ++ oxSeg parent1 a b ++ parent1.drop (b + 1) := by
  rw [oxSeg, List.append_assoc]
  have hdrop : (parent1.drop a).drop (b + 1 - a) = parent1.drop (b + 1) := by
    rw [List.drop_drop]
    congr 1
    omega
  rw [← hdrop, List.take_append_drop, List.take_append_drop]

/-- Filtering a duplicate-free three-part concatenation for membership in
its middle part returns the middle part. -/
lemma filter_mem_middle (l1 s l3 : List Nat) (hnd : (l1 ++ s ++ l3).Nodup) :
    (l1 ++ s ++ l3).filter (fun g => decide (g ∈ s)) = s := by
  rw [List.append_assoc, List.nodup_append] at hnd
  obtain ⟨hnd1, hnd2, hdisj1⟩ := hnd
  rw [List.nodup_append] at hnd2
  obtain ⟨hndseg, hnd3, hdisj2⟩ := hnd2
  rw [List.filter_append, List.filter_append]
  have h1 : l1.filter (fun g => decide (g ∈ s)) = [] := by
    rw [List.filter_eq_nil_iff]
    intro g hg
    simp only [decide_eq_true_eq]
    intro hgseg
    exact hdisj1 hg (List.mem_append.mpr (Or.inl hgseg))
  have h2 : s.filter (fun g => decide (g ∈ s)) = s := by
    rw [List.filter_eq_self]
    intro g hg
    simpa using hg
  have h3 : l3.filter (fun g => decide (g ∈ s)) = [] := by
    rw [List.filter_eq_nil_iff]
    intro g hg
    simp only [decide_eq_true_eq]
    intro hgseg
    exact hdisj2 hgseg hg
  rw [h1, h2, h3, List.nil_append, List.append_nil]

/-- Filtering the (duplicate-free) parent for slice membership returns the
slice itself. -/
lemma filter_mem_oxSeg (parent1 : List Nat) (a b : Nat) (hab : a ≤ b)
    (hnd : parent1.Nodup) :
    parent1.filter (fun g => decide (g ∈ oxSeg parent1 a b)) = oxSeg parent1 a b := by
  have hmid := filter_mem_middle (parent1.take a) (oxSeg parent1 a b)
    (parent1.drop (b + 1)) (by rw [← oxSeg_decomp parent1 a b hab]; exact hnd)
  calc parent1.filter (fun g => decide (g ∈ oxSeg parent1 a b))
      = (parent1.take a ++ oxSeg parent1 a b ++
          parent1.drop (b + 1)).filter (fun g => decide (g ∈ oxSeg parent1 a b)) := by
        rw [← oxSeg_decomp parent1 a b hab]
    _ = oxSeg parent1 a b := hmid

/-- C5: under parents that are equal-length permutations of the same
duplicate-free gene set and crossover points `a ≤ b < n`, the OX child is a
permutation of that gene set (no duplicates, no omissions, same length) and
carries parent1's slice verbatim at positions `a..b`. -/
theorem c5_ox_crossover (parent1 parent2 : List Nat) (a b : Nat)
    (hab : a ≤ b) (hb : b < parent1.length)
    (hnd : parent1.Nodup) (hperm : parent2.Perm parent1) :
    (ox_crossover parent1 parent2 a b).Perm parent1 ∧
    (ox_crossover parent1 parent2 a b).length = parent1.length ∧
    (ox_crossover parent1 parent2 a b).Nodup ∧
    ((ox_crossover parent1 parent2 a b).drop a).take (b + 1 - a) = oxSeg parent1 a b := by
  set seg := oxSeg parent1 a b with hseg
  set fill := oxFill parent1 parent2 a b with hfill
  have hfillperm : fill.Perm (parent1.filter (fun g => !decide (g ∈ seg))) :=
    hperm.filter _
  have hsegperm : (parent2.filter (fun g => decide (g ∈ seg))).Perm seg := by
    have := hperm.filter (fun g => decide (g ∈ seg))
    rwa [filter_mem_oxSeg parent1 a b hab hnd] at this
  -- the child is a permutation of fill ++ seg
  have hchild : (ox_crossover parent1 parent2 a b).Perm (fill ++ seg) := by
    rw [ox_crossover, ← hseg, ← hfill, List.append_assoc]
    refine (List.Perm.append_left _ (List.perm_append_comm)).trans ?_
    rw [← List.append_assoc, List.take_append_drop]
  have hperm1 : (fill ++ seg).Perm parent1 := by
    have hpart := List.filter_append_perm (fun g => decide (g ∈ seg)) parent1
    have : (fill ++ seg).Perm
        (parent1.filter (fun g => decide (g ∈ seg)) ++
          parent1.filter (fun g => !decide (g ∈ seg))) := by
      refine List.Perm.trans ?_ List.perm_append_comm
      exact List.Perm.append hfillperm
        (by rw [filter_mem_oxSeg parent1 a b hab hnd])
    exact this.trans hpart
  have hchildperm : (ox_crossover parent1 parent2 a b).Perm parent1 :=
    hchild.trans hperm1
  refine ⟨hchildperm, hchildperm.length_eq, hchildperm.nodup_iff.mpr hnd, ?_⟩
  -- the fill list has exactly n - (b + 1 - a) genes, at least a of them
  have hsegl : seg.length = b + 1 - a := oxSeg_length hab hb
  have hfilll : fill.length = parent1.length - (b + 1 - a) := by
    have h1 : fill.length + seg.length = parent1.length := by
      have := hperm1.length_eq
      rwa [List.length_append] at this
    omega
  have htake : (fill.take a).length = a := by
    rw [List.length_take]
    omega
  rw [ox_crossover, ← hseg, ← hfill, List.append_assoc, List.drop_left' htake,
    List.take_left' hsegl]

def oxP1 : List Nat := [1, 2, 3, 4, 5, 6]
def oxP2 : List Nat := [6, 4, 2, 1, 3, 5]

theorem c5_ox_witness :
    ox_crossover oxP1 oxP2 2 4 = [6, 2, 3, 4, 5, 1] ∧
    (ox_crossover oxP1 oxP2 2 4).Perm oxP1 ∧
    (ox_crossover oxP1 oxP2 2 4).length = oxP1.length ∧
    (ox_crossover oxP1 oxP2 2 4).Nodup ∧
    ((ox_crossover oxP1 oxP2 2 4).drop 2).take 3 = oxSeg oxP1 2 4 :=
  ⟨by decide, c5_ox_crossover oxP1 oxP2 2 4 (by decide) (by decide) (by decide) (by decide)⟩

end CVRP

namespace CVRP

/-! ## `SPEA2._assign_fitness` (claim C7)

The fitness decomposition of `spea2.py`, indexed over the union list.
Strength and raw fitness are integer counts (floats holding exact small
integers in the source); the density term involves `np.sqrt`, so it lives
in `ℝ`.  Because `np.sqrt` is monotone, sorting the neighbour distances is
modelled by sorting the squared distances and taking the square root of the
selected entry — the selected neighbour is the same. -/

/-- Strength `S(i)`: how many union members `i` dominates. -/
def assignS (union : List Obj) (i : Nat) : Nat :=
  ((List.range union.length).filter
    (fun j => decide (j ≠ i) && spea2Dominates union[i]! union[j]!)).length

/-- Raw fitness `R(i)`: total strength of the members dominating `i`. -/
def assignR (union : List Obj) (i : Nat) : Nat :=
  (((List.range union.length).filter
    (fun j => decide (j ≠ i) && spea2Dominates union[j]! union[i]!)).map
      (assignS union)).sum

/-- `min(xs)` (Python builtin) for a nonempty list, 0 on the empty list. -/
def listMin : List ℚ → ℚ
  | [] => 0
  | x :: xs => xs.foldl min x

/-- `max(xs)` (Python builtin) for a nonempty list, 0 on the empty list. -/
def listMax : List ℚ → ℚ
  | [] => 0
  | x :: xs => xs.foldl max x

def f1s (union : List Obj) : List ℚ := union.map (fun s => s.total_distance)

def f2s (union : List Obj) : List ℚ := union.map (fun s => s.route_balance)

/-- The normalized objective pair of member `i` (zero when the objective's
range over the union is degenerate, per the `if f1max > f1min` guard). -/
def normObj (union : List Obj) (i : Nat) : ℚ × ℚ :=
  (if listMin (f1s union) < listMax (f1s union) then
     (union[i]!.total_distance - listMin (f1s union)) /
       (listMax (f1s union) - listMin (f1s union))
   else 0,
   if listMin (f2s union) < listMax (f2s union) then
     (union[i]!.route_balance - listMin (f2s union)) /
       (listMax (f2s union) - listMin (f2s union))
   else 0)

/-- Squared normalized distance between members `i` and `j`. -/
def sqDist (union : List Obj) (i j : Nat) : ℚ :=
  ((normObj union i).1 - (normObj union j).1) ^ 2 +
    ((normObj union i).2 - (normObj union j).2) ^ 2

/-- The sorted list of squared distances from `i` to every other member
(`distances.sort()` in the source; sorting squares sorts distances). -/
def sqDists (union : List Obj) (i : Nat) : List ℚ :=
  List.insertionSort (fun x y => x ≤ y)
    (((List.range union.length).filter (fun j => decide (j ≠ i))).map (sqDist union i))

/-- `k = max(1, int(np.sqrt(n)))`. -/
def kNN (n : Nat) : Nat := max 1 (Nat.sqrt n)

/-- `σk(i)`: distance to the `k`-th nearest other member, the farthest if
fewer than `k` exist, `0.0` if there are none.  (`np.sqrt` on a rational
square has no exact executable value, hence the real-valued definition.) -/
noncomputable def sigmaK (union : List Obj) (i : Nat) : ℝ :=
  let ds := sqDists union i
  if ds = [] then 0
  else if kNN union.length ≤ ds.length then
    Real.sqrt ((ds[kNN union.length - 1]! : ℚ) : ℝ)
  else Real.sqrt ((ds[ds.length - 1]! : ℚ) : ℝ)

/-- `D(i) = 1 / (σk(i) + 2)`. -/
noncomputable def densityD (union : List Obj) (i : Nat) : ℝ := 1 / (sigmaK union i + 2)

/-- `F(i) = R(i) + D(i)`. -/
noncomputable def fitnessF (union : List Obj) (i : Nat) : ℝ :=
  (assignR union i : ℝ) + densityD union i

/-- C7: in a union with more than one member, every member with raw fitness
zero has combined fitness strictly below 1 (indeed at most ½). -/
theorem c7_spea2_nondominated_fitness (union : List Obj) (i : Nat)
    (hn : 1 < union.length) (hi : i < union.length) (hR : assignR union i = 0) :
    fitnessF union i < 1 := by
  rw [fitnessF, hR, densityD]
  have hσ : 0 ≤ sigmaK union i := by
    rw [sigmaK]
    split
    · exact le_refl 0
    · split <;> exact Real.sqrt_nonneg _
  have h2 : (0 : ℝ) < sigmaK union i + 2 := by linarith
  have hhalf : 1 / (sigmaK union i + 2) ≤ 1 / 2 :=
    one_div_le_one_div_of_le (by norm_num) (by linarith)
  push_cast
  linarith

/-- Two identical objective pairs: neither dominates, so both have raw
fitness 0. -/
def unionC7 : List Obj := [⟨3, 4⟩, ⟨3, 4⟩]

theorem c7_witness : fitnessF unionC7 0 < 1 :=
  c7_spea2_nondominated_fitness unionC7 0 (by decide) (by decide) (by decide)

end CVRP

namespace CVRP

/-! ## `SPEA2._environmental_selection` (claim C8)

`_environmental_selection(union, fitness, size)` starts from
`selected = {s for s in union if fitness[s] < 1.0}` — a Python `set`.  The
fill branch (`len(selected) < size`) then calls `selected.extend(...)`,
which does not exist on a set, so it raises `AttributeError` (and the
preceding `sorted(generator)` over bare `CVRPSolution` objects, which
define no ordering, raises `TypeError` as soon as two remain).  The model
returns that failure as an `Except.error`.  Members are union indices; the
fitness dict is a rational-valued map (the exact float values `run` passes
down).  The truncation branch iterates the set; its unspecified iteration
order is modelled as index order, which claim C8 does not touch. -/

/-- Normalized objective pairs over the currently selected members. -/
def envNormalized (union : List Obj) (selected : List Nat) : List (ℚ × ℚ) :=
  let ds := selected.map (fun i => union[i]!.total_distance)
  let bs := selected.map (fun i => union[i]!.route_balance)
  selected.map (fun i =>
    (if listMin ds < listMax ds then
       (union[i]!.total_distance - listMin ds) / (listMax ds - listMin ds)
     else 0,
     if listMin bs < listMax bs then
       (union[i]!.route_balance - listMin bs) / (listMax bs - listMin bs)
     else 0))

/-- Squared distance of member at position `p` to its nearest other member
(`min_dist` in the source; comparisons of `np.sqrt` distances agree with
comparisons of their squares). -/
def minSqDistAt (norms : List (ℚ × ℚ)) (p : Nat) : WithTop ℚ :=
  ((List.range norms.length).filter (fun q => decide (q ≠ p))).foldl
    (fun acc q => min acc
      (((((norms[p]!).1 - (norms[q]!).1) ^ 2 +
         ((norms[p]!).2 - (norms[q]!).2) ^ 2 : ℚ)) : WithTop ℚ)) ⊤

/-- `rm_idx`: the first position whose nearest-neighbour distance is
strictly below the best so far (`rm_idx, best_dist = 0, inf`). -/
def argminFirst (vals : List (WithTop ℚ)) : Nat :=
  (vals.foldl (fun (st : Nat × Nat × WithTop ℚ) v =>
    if v < st.2.2 then (st.2.1, st.2.1 + 1, v) else (st.1, st.2.1 + 1, st.2.2))
    (0, 0, ⊤)).1

/-- One iteration of the crowding-removal `while` loop. -/
def envRemoveStep (union : List Obj) (selected : List Nat) : List Nat :=
  let norms := envNormalized union selected
  let vals := (List.range selected.length).map (fun p => minSqDistAt norms p)
  selected.eraseIdx (argminFirst vals)

/-- The `while len(selected) > size` loop, running its exact iteration
count (each pass removes one member). -/
def envShrink (union : List Obj) : Nat → List Nat → List Nat
  | 0, selected => selected
  | fuel + 1, selected => envShrink union fuel (envRemoveStep union selected)

/-- `SPEA2._environmental_selection(union, fitness, size)` from `spea2.py`. -/
def environmental_selection (union : List Obj) (fitness : Nat → ℚ) (size : Nat) :
    Except String (List Nat) :=
  let selected := (List.range union.length).filter (fun i => decide (fitness i < 1))
  if selected.length < size then
    Except.error "AttributeError: set object has no attribute extend"
  else
    Except.ok (envShrink union (selected.length - size) selected)

/-- Union realizing C8's precondition: member 0 dominates members 1 and 2,
so only member 0 has fitness below 1 (e.g. `F = (1/2, 5/2, 5/2)`), and the
`F < 1` set has fewer than `P = 2` elements. -/
def unionC8 : List Obj := [⟨0, 0⟩, ⟨1, 1⟩, ⟨2, 2⟩]

def fitC8 : Nat → ℚ := fun i => if i = 0 then mkRat 1 2 else mkRat 5 2

/-- C8 fails on the code: on a union whose `F < 1` set is smaller than `P`,
`_environmental_selection` raises instead of filling up to `P` members
(`selected` is a `set`, and `set.extend` does not exist; `sorted` over
unordered `CVRPSolution`s fails first when two candidates remain). -/
theorem c8_env_selection_raises :
    environmental_selection unionC8 fitC8 2 =
      Except.error "AttributeError: set object has no attribute extend" := by
  rfl

end CVRP
